import Mathlib

/-!
Verification of the OHM-Data-Converter name-resolution and translation-caching
pipeline (`src/converter/main.py`), shallowly embedded in Lean 4.

The embedding follows the source file function by function:
  * `has_chinese`, `parse_tags`, `get_title_en`, `get_title_zh` — the helpers;
  * `prime_translation_cache` — batched translation of the pending labels,
    with the Google translator modelled as an oracle (`Translator`) and the
    sequence of provider invocations recorded as a trace (`PCall`);
  * `processFeatures` / `mainRun` — the per-year enrichment and the three-phase
    orchestration of `main`, with dataset reading modelled as a partial map
    from years to feature lists and `json.loads` as an oracle
    (`String → Option PyVal`, `none` standing for a decode error).
Python values that cross the relevant interfaces are modelled by `PyVal`;
a dynamic-type error (calling `.get` on a non-dict) is modelled by `Option`
propagation (`none` = the Python process raises).
-/

namespace OHM

/-- Python values as they appear in the tags column and in decoded JSON:
a string-keyed dict of strings (the shape of an OHM tag blob), a string,
an int, a bool, or None. -/
inductive PyVal where
  | dict (d : List (String × String))
  | pstr (s : String)
  | pint (n : Int)
  | pbool (b : Bool)
  | pnone
deriving Repr, DecidableEq, Inhabited

/-- A tag mapping: string keys to string values, unique keys (Python dict). -/
abbrev TagMap := List (String × String)

/-- `d.get k` on a Python dict followed by `or ""`: the value if the key is
present, `""` if absent (None is falsy, so `tags.get(k) or ""` yields `""`). -/
def tgetD (tags : TagMap) (k : String) : String :=
  (tags.lookup k).getD ""

/-- Python `a or b` on strings: `a` if truthy (non-empty), else `b`. -/
def pyOrS (a b : String) : String :=
  if a = "" then b else a

/-- Whether a character lies in CJK Unified Ideographs (U+4E00–U+9FFF) or
Extension A (U+3400–U+4DBF): the character class of `_CJK_RE`. -/
def isCJK (c : Char) : Bool :=
  (0x4e00 ≤ c.toNat && c.toNat ≤ 0x9fff) || (0x3400 ≤ c.toNat && c.toNat ≤ 0x4dbf)

/-- Python `str.strip()`: drop leading and trailing whitespace, modelled over
the character list (ASCII whitespace set, which covers this data). -/
def strip (s : String) : String :=
  String.mk (((s.data.dropWhile Char.isWhitespace).reverse.dropWhile Char.isWhitespace).reverse)

/-- `has_chinese(text)`: does the text contain a CJK code point
(`_CJK_RE.search`)? -/
def has_chinese (text : String) : Bool :=
  text.data.any isCJK

/-- `parse_tags(raw)`: a dict is returned unchanged; a string is passed to
`json.loads` (the oracle `loads`, `none` = `JSONDecodeError`/`ValueError`),
whose result is returned as-is on success and replaced by `{}` on decode
error; every other shape yields `{}`. -/
def parse_tags (loads : String → Option PyVal) (raw : PyVal) : PyVal :=
  match raw with
  | .dict d => .dict d
  | .pstr s => (loads s).getD (.dict [])
  | _ => .dict []

/-- `get_title_en(tags, name)`: `(tags.get("name:en") or name or "").strip()`.
`tags.get` returning None (absent key) and the empty string are both falsy,
so the `or` chain is the first non-empty of the tag value and `name`. -/
def get_title_en (tags : TagMap) (name : String) : String :=
  strip (pyOrS (pyOrS (tgetD tags "name:en") name) "")

/-- The fixed priority order of Chinese tag keys in `get_title_zh`. -/
def zhKeys : List String :=
  ["name:zh", "name:zh-Hans", "name:zh-Hant", "name:zh-CN", "name:zh-TW", "name:zh-SG"]

/-- `get_title_zh(tags, name)`: first key in `zhKeys` whose value strips to a
non-empty string wins; otherwise `name.strip()` if the name has a CJK
character; otherwise None. -/
def get_title_zh (tags : TagMap) (name : String) : Option String :=
  match zhKeys.findSome? (fun k =>
      let val := strip (tgetD tags k)
      if val = "" then none else some val) with
  | some val => some val
  | none => if has_chinese name then some (strip name) else none

/-- The process-wide translation cache `_cache : dict[str, str]`, modelled as a
partial map; assignment overwrites. -/
def Cache : Type := String → Option String

/-- `_cache[k] = v`. -/
def Cache.insert (c : Cache) (k v : String) : Cache :=
  fun x => if x = k then some v else c x

/-- The cache at process start: empty. -/
def emptyCache : Cache := fun _ => none

/-- The translation provider (`GoogleTranslator`), as an oracle: `none` models
the call raising an exception. -/
structure Translator where
  translate_batch : List String → Option (List String)
  translate : String → Option String

/-- One provider invocation, for the call trace: a batched call with its
argument list, or an individual call with its label. -/
inductive PCall where
  | batch (chunk : List String)
  | single (s : String)
deriving Repr, DecidableEq

/-- Order-preserving deduplication keeping first occurrences:
`list(dict.fromkeys(...))`. Each element is kept at its first position and all
later duplicates are dropped. -/
def dedupKeepFirst : List String → List String
  | [] => []
  | x :: xs => x :: (dedupKeepFirst xs).filter (fun y => y ≠ x)

/-- Fuel-driven worker for `chunksOf`; the fuel starts at the list length and
strictly bounds the recursion depth. -/
def chunksOfAux (k : Nat) : Nat → List α → List (List α)
  | _, [] => []
  | 0, _ :: _ => []
  | fuel + 1, x :: xs => ((x :: xs).take k) :: chunksOfAux k fuel ((x :: xs).drop k)

/-- Split a list into consecutive chunks of size `k`
(`for i in range(0, len(l), k): l[i : i + k]`). Empty for `k = 0`. -/
def chunksOf (k : Nat) (l : List α) : List (List α) :=
  if k = 0 then [] else chunksOfAux k l.length l

/-- The pending labels computed at the top of `prime_translation_cache`:
`list(dict.fromkeys(n for n in names if n and n not in _cache))`. -/
def pendingLabels (cache : Cache) (names : List String) : List String :=
  dedupKeepFirst (names.filter (fun n => n ≠ "" && (cache n).isNone))

/-- The success branch of a batch: `for src, tgt in zip(chunk, results):
_cache[src] = tgt or src` (the zip stops at the shorter list). -/
def applyBatch (c : Cache) : List String → List String → Cache
  | [], _ => c
  | _ :: _, [] => c
  | src :: ss, tgt :: ts => applyBatch (c.insert src (pyOrS tgt src)) ss ts

/-- The one-by-one fallback after a failed batch: each label is translated
individually (`_cache[src] = translator.translate(src) or src`), and on
individual failure the label itself is cached (`_cache[src] = src`). -/
def applySingles (tr : Translator) (c : Cache) : List String → Cache
  | [] => c
  | src :: ss =>
    applySingles tr
      (match tr.translate src with
       | some t => c.insert src (pyOrS t src)
       | none => c.insert src src) ss

/-- The batch loop of `prime_translation_cache`, also recording the provider
invocations: every chunk is first passed to `translate_batch`; on failure each
of its labels is passed to `translate`. -/
def primeBatches (tr : Translator) : List (List String) → Cache → Cache × List PCall
  | [], c => (c, [])
  | chunk :: rest, c =>
    match tr.translate_batch chunk with
    | some results =>
      let r := primeBatches tr rest (applyBatch c chunk results)
      (r.1, PCall.batch chunk :: r.2)
    | none =>
      let r := primeBatches tr rest (applySingles tr c chunk)
      (r.1, PCall.batch chunk :: (chunk.map PCall.single ++ r.2))

/-- `BATCH = 50`. -/
def BATCH : Nat := 50

/-- `prime_translation_cache(names)` acting on an explicit cache state, paired
with the trace of provider invocations it issues. -/
def prime_translation_cache_run (tr : Translator) (cache : Cache)
    (names : List String) : Cache × List PCall :=
  primeBatches tr (chunksOf BATCH (pendingLabels cache names)) cache

/-- The cache state after `prime_translation_cache(names)` returns. -/
def prime_translation_cache (tr : Translator) (cache : Cache)
    (names : List String) : Cache :=
  (prime_translation_cache_run tr cache names).1

/-- Total occurrences of a label among the batched invocations of a trace. -/
def batchOccs : List PCall → String → Nat
  | [], _ => 0
  | .batch chunk :: rest, n => chunk.count n + batchOccs rest n
  | .single _ :: rest, n => batchOccs rest n

/-- Total occurrences of a label among the individual invocations of a trace. -/
def singleOccs : List PCall → String → Nat
  | [], _ => 0
  | .batch _ :: rest, n => singleOccs rest n
  | .single s :: rest, n => (if s = n then 1 else 0) + singleOccs rest n

/-- The labels an invocation passes to the provider. -/
def PCall.labels : PCall → List String
  | .batch chunk => chunk
  | .single s => [s]

/-- Map a fallible step over a list, failing as soon as one element fails
(`none` = the Python process raises in the underlying loop). -/
def mapMo (f : α → Option β) : List α → Option (List β)
  | [] => some []
  | a :: l =>
    match f a with
    | none => none
    | some b =>
      match mapMo f l with
      | none => none
      | some bs => some (b :: bs)

/-- One input record of a yearly dataset: its geometry (opaque, type `G`), the
`name` column value (None when absent), the raw `tags` column value, and every
other attribute the record carries. -/
structure Feature (G : Type) where
  geometry : G
  name : Option String
  tags : PyVal
  extra : List (String × PyVal)

/-- An output record of a written year: the four assigned fields. -/
structure OutRow (G : Type) where
  oid : Nat
  title : String
  title_en : String
  geometry : G
deriving Repr, DecidableEq

/-- `str(row.get("name") or "")`: the name string, `""` when the column is
absent (None) or the name is empty (both falsy). -/
def rawName (f : Feature G) : String :=
  f.name.getD ""

/-- Using a Python value as a dict: `none` models the `AttributeError` the
source would raise on `.get` of a non-dict. -/
def asDict : PyVal → Option TagMap
  | .dict d => some d
  | _ => none

/-- The per-feature work of the resolution phase of `process_year`: parse the
tags, compute `title_en`, then `title` from the tag-derived Chinese name or
the cache (`_cache.get(en, en)`). `none` = the Python process raises. -/
def featureTitles (loads : String → Option PyVal) (cache : Cache)
    (f : Feature G) : Option (String × String) :=
  (asDict (parse_tags loads f.tags)).map (fun tags =>
    let nm := rawName f
    let en := get_title_en tags nm
    let title :=
      match get_title_zh tags nm with
      | some zh => zh
      | none => (cache en).getD en
    (en, title))

/-- The feature enrichment of `process_year` on one year's features: resolved
titles in original order, then `oid = index + 1` after `reset_index`. -/
def processFeatures (loads : String → Option PyVal) (cache : Cache)
    (feats : List (Feature G)) : Option (List (OutRow G)) :=
  (mapMo (fun f => (featureTitles loads cache f).map (fun p => (p, f.geometry))) feats).map
    (fun rows => rows.enum.map (fun q =>
      { oid := q.1 + 1, title := q.2.1.2, title_en := q.2.1.1, geometry := q.2.2 }))

/-- A cell of the written attribute table. -/
inductive Cell (G : Type) where
  | num (n : Nat)
  | text (s : String)
  | geom (g : G)
deriving Repr, DecidableEq

/-- The record actually written for one feature:
`out = gdf[["oid", "title", "title_en", "geometry"]]`. -/
def writtenRow (r : OutRow G) : List (String × Cell G) :=
  [("oid", Cell.num r.oid), ("title", Cell.text r.title),
   ("title_en", Cell.text r.title_en), ("geometry", Cell.geom r.geometry)]

/-- The phase-1 check of one feature: `some none` when no translation is
needed, `some (some en)` when the English label `en` is recorded as needing
translation, `none` when the Python process raises on a non-dict tag value. -/
def featureNeed (loads : String → Option PyVal) (f : Feature G) :
    Option (Option String) :=
  (asDict (parse_tags loads f.tags)).map (fun tags =>
    let nm := rawName f
    match get_title_zh tags nm with
    | some _ => none
    | none =>
      let en := get_title_en tags nm
      if en = "" then none else some en)

/-- Phase 1 of `main`: scan every requested year (missing years skipped) and
accumulate, in order, every non-empty English label lacking a Chinese tag. -/
def discoverAll (loads : String → Option PyVal)
    (ds : Int → Option (List (Feature G))) (years : List Int) :
    Option (List String) :=
  (mapMo (fun y =>
    match ds y with
    | none => some []
    | some feats => (mapMo (featureNeed loads) feats).map
        (fun (l : List (Option String)) => l.filterMap id)) years).map
    (fun (l : List (List String)) => l.flatten)

/-- Phase 3 of `main`: `process_year` for every requested year; a missing year
contributes nothing, an existing year contributes its written rows. -/
def phase3 (loads : String → Option PyVal) (cache : Cache)
    (ds : Int → Option (List (Feature G))) (years : List Int) :
    Option (List (Int × List (OutRow G))) :=
  (mapMo (fun y =>
    match ds y with
    | none => some none
    | some feats => (processFeatures loads cache feats).map (fun rows => some (y, rows))) years).map
    (fun (l : List (Option (Int × List (OutRow G)))) => l.filterMap id)

/-- `list(range(start, end + 1))`. -/
def yearsList (s e : Int) : List Int :=
  (List.range (e + 1 - s).toNat).map (fun i => s + (i : Int))

/-- Everything one run produces: the pooled phase-1 labels, the primed cache,
the provider-call trace, the written outputs and the reported written count. -/
structure RunResult (G : Type) where
  needs : List String
  cache : Cache
  calls : List PCall
  outputs : List (Int × List (OutRow G))
  written : Nat

/-- The fatal message of `main` for an invalid range. -/
def rangeErrMsg (s e : Int) : String :=
  s!"Error: --start ({s}) must be <= --end ({e})"

/-- `main()`: validate the range (fatal `SystemExit(1)` modelled as `.error`,
issued before the world — `ds`, `tr`, `loads` — is consulted), then phase 1
(discovery), phase 2 (`prime_translation_cache` on the pooled labels, starting
from the empty `_cache`), then phase 3 (write each year); `written` is the
number of years written. The inner `none` models a dynamic-type crash. -/
def mainRun (tr : Translator) (loads : String → Option PyVal)
    (ds : Int → Option (List (Feature G))) (s e : Int) :
    Except String (Option (RunResult G)) :=
  if s > e then .error (rangeErrMsg s e)
  else .ok ((discoverAll loads ds (yearsList s e)).bind (fun needs =>
    (phase3 loads (prime_translation_cache_run tr emptyCache needs).1 ds
        (yearsList s e)).bind (fun outs =>
      some { needs := needs,
             cache := (prime_translation_cache_run tr emptyCache needs).1,
             calls := (prime_translation_cache_run tr emptyCache needs).2,
             outputs := outs, written := outs.length })))

/-- Projection of a run outcome onto its result, with a default. -/
def runGet (x : Except String (Option (RunResult G))) (d : RunResult G) :
    RunResult G :=
  match x with
  | .ok (some r) => r
  | _ => d

/-- Whether an outcome is a normal exit (no fatal range error). -/
def exceptOk (x : Except String (Option (RunResult G))) : Bool :=
  match x with
  | .ok _ => true
  | .error _ => false

/-- A feature with its extra attributes removed; the written output must not
depend on them. -/
def dropExtra (f : Feature G) : Feature G :=
  { f with extra := [] }

/-- The spec's wording of the English-label rule: the `name:en` tag value if
that is non-empty, otherwise the raw name if non-empty, otherwise the empty
string, the result trimmed in every case. -/
def title_en_spec (tags : TagMap) (name : String) : String :=
  strip (if ((tags.lookup "name:en").getD "") ≠ "" then (tags.lookup "name:en").getD ""
   else if name ≠ "" then name else "")

/-- The spec's wording of the Chinese-candidate rule: the first non-empty
trimmed value among the six keys in order, else the trimmed raw name when it
contains a CJK code point, else no candidate. -/
def title_zh_spec (tags : TagMap) (name : String) : Option String :=
  match (zhKeys.map (fun k => strip ((tags.lookup k).getD ""))).find? (fun v => v != "") with
  | some v => some v
  | none => if has_chinese name then some (strip name) else none

/-- Modelled behavior of Python `json.loads` at the single input `"3"`:
`json.loads("3")` succeeds and returns the number `3` (JSON allows any value
at the top level, not only objects). Other inputs are irrelevant here and
modelled as failing. -/
def loadsNum3 : String → Option PyVal :=
  fun s => if s = "3" then some (.pint 3) else none

/-- A `json.loads` oracle whose successful decodes are all tag mappings. -/
def loadsDictOnly : String → Option PyVal :=
  fun _ => some (.dict [("a", "b")])

/-- A decode oracle that always fails (every blob is unparsable). -/
def loadsNone : String → Option PyVal :=
  fun _ => none

/-- A concrete always-succeeding translation provider for the witnesses. -/
def trEx : Translator :=
  { translate_batch := fun c => some (c.map (fun s => s ++ "中")),
    translate := fun s => some (s ++ "中") }

/-- A concrete always-failing translation provider for the witnesses. -/
def trFail : Translator :=
  { translate_batch := fun _ => none, translate := fun _ => none }

/-- A concrete two-year world over geometry type `Nat`: datasets exist for
1900 and 1901 only, and the label "Germany" recurs across both years. -/
def dsEx : Int → Option (List (Feature Nat)) :=
  fun y =>
    if y = 1900 then
      some [⟨7, some "Germany", .dict [("name:en", "Germany")], [("pop", .pint 3)]⟩]
    else if y = 1901 then
      some [⟨8, some "Germany", .dict [], []⟩, ⟨9, some "日本", .dict [], []⟩]
    else none

/-- A default run result, for total projection out of `Except`/`Option`. -/
def dfltRun : RunResult G :=
  { needs := [], cache := emptyCache, calls := [], outputs := [], written := 0 }

/-- Two concrete features over geometry type `Nat` for the identifier and
frame witnesses. -/
def featsEx : List (Feature Nat) :=
  [⟨21, some "France", .dict [("name:en", "France"), ("name:zh", "法国")], [("k", .pstr "v")]⟩,
   ⟨22, none, .pstr "bad json", []⟩]

/-! ### Basic lemmas about the cache, deduplication and chunking -/

theorem Cache.insert_self (c : Cache) (k v : String) : (c.insert k v) k = some v := by
  simp [Cache.insert]

theorem Cache.insert_ne (c : Cache) (k v x : String) (h : x ≠ k) :
    (c.insert k v) x = c x := by
  simp [Cache.insert, h]

theorem Cache.insert_isSome (c : Cache) (k v x : String) (h : (c x).isSome) :
    ((c.insert k v) x).isSome := by
  by_cases hx : x = k
  · subst hx; simp [Cache.insert]
  · rwa [Cache.insert_ne c k v x hx]

theorem mem_dedupKeepFirst : ∀ (l : List String) (a : String),
    a ∈ dedupKeepFirst l ↔ a ∈ l
  | [], a => by simp [dedupKeepFirst]
  | x :: xs, a => by
    rw [dedupKeepFirst]
    by_cases hax : a = x
    · subst hax; simp
    · simp only [List.mem_cons, hax, false_or, List.mem_filter,
        mem_dedupKeepFirst xs a]
      simp [hax]

theorem nodup_dedupKeepFirst : ∀ l : List String, (dedupKeepFirst l).Nodup
  | [] => by simp [dedupKeepFirst]
  | x :: xs => by
    rw [dedupKeepFirst]
    refine List.nodup_cons.mpr ⟨?_, (nodup_dedupKeepFirst xs).filter _⟩
    intro hmem
    simp [List.mem_filter] at hmem

theorem sublist_dedupKeepFirst : ∀ l : List String, (dedupKeepFirst l).Sublist l
  | [] => by simp [dedupKeepFirst]
  | x :: xs => by
    rw [dedupKeepFirst]
    exact List.Sublist.cons₂ x
      ((List.filter_sublist _).trans (sublist_dedupKeepFirst xs))

theorem flatten_chunksOfAux (k : Nat) (hk : 0 < k) : ∀ (fuel : Nat) (l : List α),
    l.length ≤ fuel → (chunksOfAux k fuel l).flatten = l
  | _, [] => by intro _; cases _h : k <;> simp [chunksOfAux]
  | 0, x :: xs => by intro h; simp at h
  | fuel + 1, x :: xs => by
    intro h
    rw [chunksOfAux, List.flatten_cons,
      flatten_chunksOfAux k hk fuel ((x :: xs).drop k) (by
        simp only [List.length_drop, List.length_cons] at h ⊢
        omega)]
    exact List.take_append_drop _ _

theorem flatten_chunksOf (k : Nat) (hk : 0 < k) (l : List α) :
    (chunksOf k l).flatten = l := by
  rw [chunksOf, if_neg (by omega)]
  exact flatten_chunksOfAux k hk l.length l (Nat.le_refl _)

theorem pendingLabels_mem (cache : Cache) (names : List String) (n : String) :
    n ∈ pendingLabels cache names ↔ n ∈ names ∧ n ≠ "" ∧ cache n = none := by
  rw [pendingLabels, mem_dedupKeepFirst]
  simp [List.mem_filter, Option.isNone_iff_eq_none, and_assoc]

theorem pendingLabels_nodup (cache : Cache) (names : List String) :
    (pendingLabels cache names).Nodup :=
  nodup_dedupKeepFirst _

theorem pendingLabels_sublist (cache : Cache) (names : List String) :
    (pendingLabels cache names).Sublist names :=
  (sublist_dedupKeepFirst _).trans (List.filter_sublist names)

/-! ### Lemmas about the provider-call trace -/

theorem batchOccs_append : ∀ (l l' : List PCall) (n : String),
    batchOccs (l ++ l') n = batchOccs l n + batchOccs l' n
  | [], l', n => by simp [batchOccs]
  | .batch c :: rest, l', n => by
    simp only [List.cons_append, batchOccs, List.append_eq, batchOccs_append rest l' n]
    omega
  | .single s :: rest, l', n => by
    simp only [List.cons_append, batchOccs, List.append_eq, batchOccs_append rest l' n]

theorem singleOccs_append : ∀ (l l' : List PCall) (n : String),
    singleOccs (l ++ l') n = singleOccs l n + singleOccs l' n
  | [], l', n => by simp [singleOccs]
  | .batch c :: rest, l', n => by
    simp only [List.cons_append, singleOccs, List.append_eq, singleOccs_append rest l' n]
  | .single s :: rest, l', n => by
    simp only [List.cons_append, singleOccs, List.append_eq, singleOccs_append rest l' n]
    omega

theorem batchOccs_map_single : ∀ (chunk : List String) (n : String),
    batchOccs (chunk.map PCall.single) n = 0
  | [], n => rfl
  | s :: ss, n => by
    simp only [List.map_cons, batchOccs]
    exact batchOccs_map_single ss n

theorem singleOccs_map_single : ∀ (chunk : List String) (n : String),
    singleOccs (chunk.map PCall.single) n = chunk.count n
  | [], n => rfl
  | s :: ss, n => by
    simp only [List.map_cons, singleOccs, singleOccs_map_single ss n, List.count_cons]
    by_cases h : s = n <;> simp [h, Nat.add_comm]

theorem batchOccs_primeBatches (tr : Translator) : ∀ (chunks : List (List String))
    (c : Cache) (n : String),
    batchOccs (primeBatches tr chunks c).2 n = (chunks.flatten).count n
  | [], c, n => by simp [primeBatches, batchOccs]
  | chunk :: rest, c, n => by
    rw [List.flatten_cons, List.count_append]
    cases h : tr.translate_batch chunk with
    | some results =>
      simp only [primeBatches, h, batchOccs]
      rw [batchOccs_primeBatches tr rest (applyBatch c chunk results) n]
    | none =>
      simp only [primeBatches, h, batchOccs]
      rw [batchOccs_append, batchOccs_map_single,
        batchOccs_primeBatches tr rest (applySingles tr c chunk) n]
      omega

theorem singleOccs_primeBatches_le (tr : Translator) : ∀ (chunks : List (List String))
    (c : Cache) (n : String),
    singleOccs (primeBatches tr chunks c).2 n ≤ (chunks.flatten).count n
  | [], c, n => by simp [primeBatches, singleOccs]
  | chunk :: rest, c, n => by
    rw [List.flatten_cons, List.count_append]
    cases h : tr.translate_batch chunk with
    | some results =>
      simp only [primeBatches, h, singleOccs]
      exact Nat.le_trans (singleOccs_primeBatches_le tr rest _ n) (Nat.le_add_left _ _)
    | none =>
      simp only [primeBatches, h, singleOccs]
      rw [singleOccs_append, singleOccs_map_single]
      exact Nat.add_le_add (Nat.le_refl _) (singleOccs_primeBatches_le tr rest _ n)

theorem primeBatches_call_labels (tr : Translator) : ∀ (chunks : List (List String))
    (c : Cache) (call : PCall), call ∈ (primeBatches tr chunks c).2 →
    ∀ n ∈ call.labels, n ∈ chunks.flatten
  | [], c, call => by simp [primeBatches]
  | chunk :: rest, c, call => by
    cases h : tr.translate_batch chunk with
    | some results =>
      simp only [primeBatches, h, List.mem_cons]
      rintro (rfl | hmem) n hn
      · exact List.mem_flatten.mpr ⟨chunk, List.mem_cons_self _ _, hn⟩
      · have := primeBatches_call_labels tr rest _ call hmem n hn
        rw [List.flatten_cons]
        exact List.mem_append_right _ this
    | none =>
      simp only [primeBatches, h, List.mem_cons, List.mem_append, List.mem_map]
      rintro (rfl | ⟨s, hs, rfl⟩ | hmem) n hn
      · exact List.mem_flatten.mpr ⟨chunk, List.mem_cons_self _ _, hn⟩
      · simp only [PCall.labels, List.mem_singleton] at hn
        subst hn
        rw [List.flatten_cons]
        exact List.mem_append_left _ hs
      · have := primeBatches_call_labels tr rest _ call hmem n hn
        rw [List.flatten_cons]
        exact List.mem_append_right _ this

/-! ### Lemmas about the cache state produced by priming -/

theorem applyBatch_isSome (x : String) : ∀ (ss ts : List String) (c : Cache),
    (c x).isSome → ((applyBatch c ss ts) x).isSome
  | [], _, c => fun h => h
  | _ :: _, [], c => fun h => h
  | src :: ss, tgt :: ts, c => fun h =>
    applyBatch_isSome x ss ts _ (Cache.insert_isSome c src (pyOrS tgt src) x h)

theorem applyBatch_not_mem (x : String) : ∀ (ss ts : List String) (c : Cache),
    x ∉ ss → applyBatch c ss ts x = c x
  | [], _, c, _ => rfl
  | _ :: _, [], c, _ => rfl
  | src :: ss, tgt :: ts, c, h => by
    have hx : x ≠ src := fun hxs => h (hxs ▸ List.mem_cons_self _ _)
    rw [applyBatch, applyBatch_not_mem x ss ts _ (fun hm => h (List.mem_cons_of_mem _ hm)),
      Cache.insert_ne c src _ x hx]

theorem applyBatch_covers (x : String) : ∀ (ss ts : List String) (c : Cache),
    ts.length = ss.length → x ∈ ss → ((applyBatch c ss ts) x).isSome
  | [], _, c, _, hmem => absurd hmem (List.not_mem_nil x)
  | src :: ss, [], c, hlen, _ => by simp at hlen
  | src :: ss, tgt :: ts, c, hlen, hmem => by
    rcases List.mem_cons.mp hmem with rfl | hmem
    · exact applyBatch_isSome x ss ts _ (by rw [Cache.insert_self]; rfl)
    · exact applyBatch_covers x ss ts _ (by simpa using hlen) hmem

theorem applySingles_isSome (tr : Translator) (x : String) : ∀ (ss : List String) (c : Cache),
    (c x).isSome → ((applySingles tr c ss) x).isSome
  | [], c => fun h => h
  | src :: ss, c => fun h => by
    rw [applySingles]
    cases htr : tr.translate src <;>
      exact applySingles_isSome tr x ss _ (by
        cases htr' : tr.translate src <;> simp_all <;>
          exact Cache.insert_isSome c src _ x h)


theorem applySingles_not_mem (tr : Translator) (x : String) : ∀ (ss : List String) (c : Cache),
    x ∉ ss → applySingles tr c ss x = c x
  | [], c, _ => rfl
  | src :: ss, c, h => by
    have hx : x ≠ src := fun hxs => h (hxs ▸ List.mem_cons_self _ _)
    rw [applySingles, applySingles_not_mem tr x ss _ (fun hm => h (List.mem_cons_of_mem _ hm))]
    cases tr.translate src <;> exact Cache.insert_ne c src _ x hx

theorem applySingles_covers (tr : Translator) (x : String) : ∀ (ss : List String) (c : Cache),
    x ∈ ss → ((applySingles tr c ss) x).isSome
  | [], c, hmem => absurd hmem (List.not_mem_nil x)
  | src :: ss, c, hmem => by
    rcases List.mem_cons.mp hmem with rfl | hmem
    · rw [applySingles]
      refine applySingles_isSome tr x ss _ ?_
      cases htr : tr.translate x <;> simp [htr, Cache.insert_self]
    · rw [applySingles]
      exact applySingles_covers tr x ss _ hmem

theorem applySingles_allFail (tr : Translator) (x : String)
    (hfail : ∀ s, tr.translate s = none) : ∀ (ss : List String) (c : Cache),
    x ∈ ss → ss.Nodup → applySingles tr c ss x = some x
  | [], c, hmem, _ => absurd hmem (List.not_mem_nil x)
  | src :: ss, c, hmem, hnd => by
    rcases List.mem_cons.mp hmem with rfl | hmem
    · rw [applySingles, applySingles_not_mem tr x ss _ (List.nodup_cons.mp hnd).1, hfail x]
      exact Cache.insert_self c x x
    · rw [applySingles]
      exact applySingles_allFail tr x hfail ss _ hmem (List.nodup_cons.mp hnd).2

theorem primeBatches_isSome (tr : Translator) (x : String) : ∀ (chunks : List (List String))
    (c : Cache), (c x).isSome → (((primeBatches tr chunks c).1) x).isSome
  | [], c => fun h => h
  | chunk :: rest, c => fun h => by
    cases htb : tr.translate_batch chunk with
    | some results =>
      simp only [primeBatches, htb]
      exact primeBatches_isSome tr x rest _ (applyBatch_isSome x chunk results c h)
    | none =>
      simp only [primeBatches, htb]
      exact primeBatches_isSome tr x rest _ (applySingles_isSome tr x chunk c h)

theorem primeBatches_covers (tr : Translator) (x : String)
    (hlen : ∀ chunk r, tr.translate_batch chunk = some r → r.length = chunk.length) :
    ∀ (chunks : List (List String)) (c : Cache), x ∈ chunks.flatten →
    (((primeBatches tr chunks c).1) x).isSome
  | [], c, hmem => by simp at hmem
  | chunk :: rest, c, hmem => by
    rw [List.flatten_cons] at hmem
    cases htb : tr.translate_batch chunk with
    | some results =>
      simp only [primeBatches, htb]
      rcases List.mem_append.mp hmem with hc | hr
      · exact primeBatches_isSome tr x rest _
          (applyBatch_covers x chunk results c (hlen chunk results htb) hc)
      · exact primeBatches_covers tr x hlen rest _ hr
    | none =>
      simp only [primeBatches, htb]
      rcases List.mem_append.mp hmem with hc | hr
      · exact primeBatches_isSome tr x rest _ (applySingles_covers tr x chunk c hc)
      · exact primeBatches_covers tr x hlen rest _ hr

theorem primeBatches_not_mem (tr : Translator) (x : String) : ∀ (chunks : List (List String))
    (c : Cache), x ∉ chunks.flatten → ((primeBatches tr chunks c).1) x = c x
  | [], c, _ => rfl
  | chunk :: rest, c, h => by
    rw [List.flatten_cons] at h
    have hc : x ∉ chunk := fun hm => h (List.mem_append_left _ hm)
    have hr : x ∉ rest.flatten := fun hm => h (List.mem_append_right _ hm)
    cases htb : tr.translate_batch chunk with
    | some results =>
      simp only [primeBatches, htb]
      rw [primeBatches_not_mem tr x rest _ hr, applyBatch_not_mem x chunk results c hc]
    | none =>
      simp only [primeBatches, htb]
      rw [primeBatches_not_mem tr x rest _ hr, applySingles_not_mem tr x chunk c hc]

theorem primeBatches_allFail (tr : Translator) (x : String)
    (hbfail : ∀ chunk, tr.translate_batch chunk = none)
    (hfail : ∀ s, tr.translate s = none) : ∀ (chunks : List (List String)) (c : Cache),
    x ∈ chunks.flatten → chunks.flatten.Nodup → ((primeBatches tr chunks c).1) x = some x
  | [], c, hmem, _ => by simp at hmem
  | chunk :: rest, c, hmem, hnd => by
    rw [List.flatten_cons] at hmem hnd
    have hdisj := List.disjoint_of_nodup_append hnd
    simp only [primeBatches, hbfail chunk]
    rcases List.mem_append.mp hmem with hc | hr
    · rw [primeBatches_not_mem tr x rest _ (fun hm => hdisj hc hm)]
      exact applySingles_allFail tr x hfail chunk c hc (List.Nodup.of_append_left hnd)
    · exact primeBatches_allFail tr x hbfail hfail rest _ hr (List.Nodup.of_append_right hnd)

/-! ### Lemmas about `mapMo` and the per-year pipeline -/

theorem mapMo_length (f : α → Option β) : ∀ (l : List α) (r : List β),
    mapMo f l = some r → r.length = l.length
  | [], r => by intro h; simp [mapMo] at h; simp [← h]
  | a :: l, r => by
    intro h
    rw [mapMo] at h
    cases hf : f a with
    | none => rw [hf] at h; exact absurd h (by simp)
    | some b =>
      rw [hf] at h
      cases hm : mapMo f l with
      | none => rw [hm] at h; exact absurd h (by simp)
      | some bs =>
        rw [hm] at h
        simp only [Option.some.injEq] at h
        rw [← h]
        simp [mapMo_length f l bs hm]

theorem mapMo_map (f : β → Option γ) (g : α → β) : ∀ l : List α,
    mapMo f (l.map g) = mapMo (fun a => f (g a)) l
  | [] => rfl
  | a :: l => by
    rw [List.map_cons, mapMo, mapMo, mapMo_map f g l]

theorem mapMo_congr (f f' : α → Option β) (h : ∀ a, f a = f' a) : ∀ l : List α,
    mapMo f l = mapMo f' l
  | [] => rfl
  | a :: l => by
    rw [mapMo, mapMo, h a, mapMo_congr f f' h l]

theorem mapMo_snd (f : α → Option β) (g : α → γ) : ∀ (l : List α) (r : List (β × γ)),
    mapMo (fun a => (f a).map (fun b => (b, g a))) l = some r →
    r.map Prod.snd = l.map g
  | [], r => by intro h; simp [mapMo] at h; simp [← h]
  | a :: l, r => by
    intro h
    rw [mapMo] at h
    cases hf : f a with
    | none => rw [hf] at h; exact absurd h (by simp)
    | some b =>
      rw [hf] at h
      cases hm : mapMo (fun a => (f a).map (fun b => (b, g a))) l with
      | none => rw [hm] at h; exact absurd h (by simp)
      | some bs =>
        rw [hm] at h
        simp only [Option.map_some', Option.some.injEq] at h
        rw [← h, List.map_cons, List.map_cons, mapMo_snd f g l bs hm]

/-! ### The name resolver -/

theorem findSome?_first_nonempty (t : String → String) : ∀ keys : List String,
    keys.findSome? (fun k => let v := t k; if v = "" then none else some v) =
    (keys.map t).find? (fun v => v != "")
  | [] => rfl
  | k :: ks => by
    simp only [List.findSome?_cons, List.map_cons, List.find?_cons]
    by_cases h : t k = ""
    · simp [h, findSome?_first_nonempty t ks]
    · have hb : (t k != "") = true := by simp [h]
      simp [h, hb]

/-- Claim C6: `get_title_en` is the trimmed `name:en` tag value when that value is
non-empty, else the trimmed raw name when that is non-empty, else the empty
string — i.e. it coincides with the spec-side `title_en_spec` on every input. -/
theorem get_title_en_spec_correct (tags : TagMap) (name : String) :
    get_title_en tags name = title_en_spec tags name := by
  simp only [get_title_en, title_en_spec, pyOrS, tgetD]
  split_ifs <;> simp_all

/-- Claim C2: `get_title_zh` equals the spec-side candidate rule `title_zh_spec`
(first non-empty trimmed value of the six Chinese tag keys in order, else the
trimmed raw name when it contains CJK, else none); in particular a non-blank
`name:zh` value always wins, e.g. over `name:zh-Hant`. -/
theorem get_title_zh_spec_correct (tags : TagMap) (name : String) :
    get_title_zh tags name = title_zh_spec tags name ∧
    (strip ((tags.lookup "name:zh").getD "") ≠ "" →
      get_title_zh tags name = some (strip ((tags.lookup "name:zh").getD ""))) := by
  have hfs : get_title_zh tags name = title_zh_spec tags name := by
    rw [get_title_zh, title_zh_spec,
      findSome?_first_nonempty (fun k => strip (tgetD tags k)) zhKeys]
    rfl
  refine ⟨hfs, fun hzh => ?_⟩
  rw [hfs, title_zh_spec]
  simp only [zhKeys, List.map_cons, List.find?_cons]
  have hb : (strip ((tags.lookup "name:zh").getD "") != "") = true := by
    simpa using hzh
  simp [hb]

/-- Witness for the priority conjunct of C2 at a concrete feature carrying
both `name:zh` and `name:zh-Hant`. -/
theorem get_title_zh_spec_correct_witness :
    get_title_zh [("name:zh", "德国"), ("name:zh-Hant", "德國")] "x" = some "德国" :=
  ((get_title_zh_spec_correct [("name:zh", "德国"), ("name:zh-Hant", "德國")] "x").2
    (by decide)).trans (by decide)

/-! ### The tag parser -/

/-- Claim C5 counterexample: `parse_tags` does not always return a mapping. For the
input string `"3"`, `json.loads` succeeds and returns the number `3`
(modelled by `loadsNum3`), and `parse_tags` returns that number unchecked, so
the result is not a string-keyed mapping. -/
theorem parse_tags_nondict_counterexample :
    asDict (parse_tags loadsNum3 (PyVal.pstr "3")) = none := by
  decide

/-- Claim C5 amended: `parse_tags` never raises and (a) returns every successful
decode result as-is — hence a mapping whenever the decoder only produces
mappings, as is the case for well-formed OHM tag blobs; (b) returns a dict
input unchanged; (c) returns the empty mapping on a decode error; and (d)
returns the empty mapping on any other input shape (including absence). -/
theorem parse_tags_amended (loads : String → Option PyVal) (raw : PyVal) :
    ((∀ s v, loads s = some v → (asDict v).isSome) →
      (asDict (parse_tags loads raw)).isSome) ∧
    (∀ d : TagMap, raw = PyVal.dict d → parse_tags loads raw = PyVal.dict d) ∧
    (∀ s, raw = PyVal.pstr s → loads s = none → parse_tags loads raw = PyVal.dict []) ∧
    (∀ s, raw = PyVal.pstr s → ∀ v, loads s = some v → parse_tags loads raw = v) ∧
    ((∀ s, raw ≠ PyVal.pstr s) → (∀ d : TagMap, raw ≠ PyVal.dict d) →
      parse_tags loads raw = PyVal.dict []) := by
  refine ⟨?_, ?_, ?_, ?_, ?_⟩
  · intro hd
    cases raw with
    | dict d => simp [parse_tags, asDict]
    | pstr s =>
      cases hl : loads s with
      | none => simp [parse_tags, hl, asDict]
      | some v =>
        have := hd s v hl
        simpa [parse_tags, hl] using this
    | pint n => simp [parse_tags, asDict]
    | pbool b => simp [parse_tags, asDict]
    | pnone => simp [parse_tags, asDict]
  · rintro d rfl; rfl
  · rintro s rfl hl; simp [parse_tags, hl]
  · rintro s rfl v hl; simp [parse_tags, hl]
  · intro hs hd
    cases raw with
    | dict d => exact absurd rfl (hd d)
    | pstr s => exact absurd rfl (hs s)
    | pint n => rfl
    | pbool b => rfl
    | pnone => rfl

/-- Witness for C5 amended, at a decoder whose successful results are all
mappings and at each input shape. -/
theorem parse_tags_amended_witness :
    (asDict (parse_tags loadsDictOnly (PyVal.pstr "x"))).isSome ∧
    parse_tags loadsNone (PyVal.pstr "x") = PyVal.dict [] ∧
    parse_tags loadsNone (PyVal.dict [("k", "v")]) = PyVal.dict [("k", "v")] ∧
    parse_tags loadsNone PyVal.pnone = PyVal.dict [] := by
  refine ⟨?_, ?_, ?_, ?_⟩
  · exact (parse_tags_amended loadsDictOnly (PyVal.pstr "x")).1
      (fun s v h => by
        simp only [loadsDictOnly, Option.some.injEq] at h
        rw [← h]; rfl)
  · exact (parse_tags_amended loadsNone (PyVal.pstr "x")).2.2.1 "x" rfl rfl
  · exact (parse_tags_amended loadsNone (PyVal.dict [("k", "v")])).2.1 _ rfl
  · exact (parse_tags_amended loadsNone PyVal.pnone).2.2.2.2
      (by intro s h; cases h) (by intro d h; cases h)

/-! ### Identifier assignment and the written frame -/

/-- Claim C3: when `process_year` succeeds on a year with `N` features, the assigned
`oid`s are exactly the contiguous sequence `1..N` in original feature order,
and in particular no two output records share an identifier. -/
theorem process_year_oids (loads : String → Option PyVal) (cache : Cache)
    (feats : List (Feature G)) (rows : List (OutRow G))
    (h : processFeatures loads cache feats = some rows) :
    rows.length = feats.length ∧
    rows.map (fun r => r.oid) = List.range' 1 feats.length ∧
    (rows.map (fun r => r.oid)).Nodup := by
  rw [processFeatures] at h
  cases hm : mapMo (fun f =>
      (featureTitles loads cache f).map (fun p => (p, f.geometry))) feats with
  | none => rw [hm] at h; exact absurd h (by simp)
  | some l =>
    rw [hm] at h
    simp only [Option.map_some', Option.some.injEq] at h
    have hlen : l.length = feats.length := mapMo_length _ feats l hm
    have hoid : rows.map (fun r => r.oid) = List.range' 1 feats.length := by
      rw [← h, List.map_map]
      have h1 : ((fun r : OutRow G => r.oid) ∘ (fun q : Nat × ((String × String) × G) =>
          ({ oid := q.1 + 1, title := q.2.1.2, title_en := q.2.1.1,
             geometry := q.2.2 } : OutRow G))) =
          ((fun i => i + 1) ∘ Prod.fst) := rfl
      rw [h1, ← List.map_map, List.enum_map_fst, hlen, List.range'_eq_map_range]
      exact List.map_congr_left (fun a _ => Nat.add_comm a 1)
    refine ⟨?_, hoid, ?_⟩
    · rw [← h]
      simp [hlen]
    · rw [hoid]
      exact List.nodup_range' _ _

/-- Witness for C3 at two concrete features (one with a decodable tag dict,
one with an unparsable blob and no name). -/
theorem process_year_oids_witness :
    ((processFeatures loadsNone emptyCache featsEx).getD []).length = featsEx.length ∧
    ((processFeatures loadsNone emptyCache featsEx).getD []).map (fun r => r.oid) =
      List.range' 1 featsEx.length ∧
    (((processFeatures loadsNone emptyCache featsEx).getD []).map (fun r => r.oid)).Nodup :=
  process_year_oids loadsNone emptyCache featsEx _ rfl

/-- Claim C10: when `process_year` succeeds, the written records carry exactly the
four fields `oid`, `title`, `title_en`, `geometry`; the geometry column is the
input geometry column unchanged; and every other input attribute is dropped —
the output does not depend on the extra attributes at all. -/
theorem written_frame (loads : String → Option PyVal) (cache : Cache)
    (feats : List (Feature G)) (rows : List (OutRow G))
    (h : processFeatures loads cache feats = some rows) :
    rows.map (fun r => r.geometry) = feats.map (fun f => f.geometry) ∧
    (∀ r ∈ rows, (writtenRow r).map Prod.fst = ["oid", "title", "title_en", "geometry"]) ∧
    processFeatures loads cache (feats.map dropExtra) = some rows := by
  have hdrop : processFeatures loads cache (feats.map dropExtra) =
      processFeatures loads cache feats := by
    rw [processFeatures, processFeatures, mapMo_map]
    exact congrArg _ (mapMo_congr _ _ (fun a => rfl) feats)
  rw [processFeatures] at h
  cases hm : mapMo (fun f =>
      (featureTitles loads cache f).map (fun p => (p, f.geometry))) feats with
  | none => rw [hm] at h; exact absurd h (by simp)
  | some l =>
    rw [hm] at h
    simp only [Option.map_some', Option.some.injEq] at h
    refine ⟨?_, fun r _ => rfl, ?_⟩
    · rw [← h, List.map_map]
      have h1 : ((fun r : OutRow G => r.geometry) ∘ (fun q : Nat × ((String × String) × G) =>
          ({ oid := q.1 + 1, title := q.2.1.2, title_en := q.2.1.1,
             geometry := q.2.2 } : OutRow G))) =
          ((fun p : (String × String) × G => p.2) ∘ Prod.snd) := rfl
      rw [h1, ← List.map_map, List.enum_map_snd]
      exact mapMo_snd (featureTitles loads cache) (fun f => f.geometry) feats l hm
    · rw [hdrop, processFeatures, hm]
      simp [h]

/-- Witness for C10 at the same two concrete features. -/
theorem written_frame_witness :
    ((processFeatures loadsNone emptyCache featsEx).getD []).map (fun r => r.geometry) =
      featsEx.map (fun f => f.geometry) ∧
    (∀ r ∈ (processFeatures loadsNone emptyCache featsEx).getD [],
      (writtenRow r).map Prod.fst = ["oid", "title", "title_en", "geometry"]) ∧
    processFeatures loadsNone emptyCache (featsEx.map dropExtra) =
      some ((processFeatures loadsNone emptyCache featsEx).getD []) :=
  written_frame loadsNone emptyCache featsEx _ rfl

/-! ### Priming guarantees -/

/-- Claim C4: after `prime_translation_cache` returns, every non-empty label of the
input list is a key of the cache, provided the provider keeps its contract of
returning one result per batched label. A failed batch is retried label by
label, and when every call fails, a pending label is cached as itself (the
original label is the stored value). -/
theorem prime_cache_covers (tr : Translator) (cache : Cache) (names : List String)
    (hlen : ∀ chunk r, tr.translate_batch chunk = some r → r.length = chunk.length) :
    (∀ n ∈ names, n ≠ "" → ((prime_translation_cache tr cache names) n).isSome) ∧
    (∀ n ∈ names, n ≠ "" → cache n = none →
      (∀ chunk, tr.translate_batch chunk = none) → (∀ s, tr.translate s = none) →
      prime_translation_cache tr cache names n = some n) := by
  constructor
  · intro n hn hne
    cases hc : cache n with
    | some v =>
      exact primeBatches_isSome tr n _ cache (by rw [hc]; rfl)
    | none =>
      have hmem : n ∈ (chunksOf BATCH (pendingLabels cache names)).flatten := by
        rw [flatten_chunksOf BATCH (by decide)]
        exact (pendingLabels_mem cache names n).mpr ⟨hn, hne, hc⟩
      exact primeBatches_covers tr n hlen _ cache hmem
  · intro n hn hne hc hbfail hsfail
    have hmem : n ∈ (chunksOf BATCH (pendingLabels cache names)).flatten := by
      rw [flatten_chunksOf BATCH (by decide)]
      exact (pendingLabels_mem cache names n).mpr ⟨hn, hne, hc⟩
    have hnd : (chunksOf BATCH (pendingLabels cache names)).flatten.Nodup := by
      rw [flatten_chunksOf BATCH (by decide)]
      exact pendingLabels_nodup cache names
    exact primeBatches_allFail tr n hbfail hsfail _ cache hmem hnd

/-- Witness for C4: a successful provider caches both labels; the all-failing
provider caches the label as itself. -/
theorem prime_cache_covers_witness :
    ((prime_translation_cache trEx emptyCache ["Germany", "", "Germany", "France"]) "France").isSome ∧
    prime_translation_cache trFail emptyCache ["Germany"] "Germany" = some "Germany" := by
  constructor
  · exact (prime_cache_covers trEx emptyCache ["Germany", "", "Germany", "France"]
      (fun chunk r h => by
        simp only [trEx, Option.some.injEq] at h
        rw [← h, List.length_map])).1 "France" (by decide) (by decide)
  · exact (prime_cache_covers trFail emptyCache ["Germany"]
      (fun chunk r h => by simp [trFail] at h)).2 "Germany" (by decide) (by decide)
      rfl (fun _ => rfl) (fun _ => rfl)

/-- Claim C1: the list of labels `prime_translation_cache` works from is
deduplicated, order-preserving (a sublist of the pooled input), and excludes
empty and already-cached labels; consequently, over the whole trace of
provider invocations, each label occurs at most once among batched calls and
at most once among individual calls. At the run level, `main` pools the
phase-1 labels of all requested years into one list and issues only the calls
of a single `prime_translation_cache` invocation on that pooled list, so each
unique label is batch-translated at most once across the entire run. -/
theorem labels_translated_once (tr : Translator) :
    (∀ (cache : Cache) (names : List String),
      (pendingLabels cache names).Nodup ∧
      (pendingLabels cache names).Sublist names ∧
      (∀ n ∈ pendingLabels cache names, n ≠ "" ∧ cache n = none) ∧
      (∀ n, batchOccs (prime_translation_cache_run tr cache names).2 n ≤ 1 ∧
        singleOccs (prime_translation_cache_run tr cache names).2 n ≤ 1)) ∧
    (∀ (G : Type) (loads : String → Option PyVal) (ds : Int → Option (List (Feature G)))
      (s e : Int) (r : RunResult G), mainRun tr loads ds s e = Except.ok (some r) →
      r.calls = (prime_translation_cache_run tr emptyCache r.needs).2 ∧
      ∀ n, batchOccs r.calls n ≤ 1 ∧ singleOccs r.calls n ≤ 1) := by
  have hprime : ∀ (cache : Cache) (names : List String) (n : String),
      batchOccs (prime_translation_cache_run tr cache names).2 n ≤ 1 ∧
      singleOccs (prime_translation_cache_run tr cache names).2 n ≤ 1 := by
    intro cache names n
    have hcount : ((chunksOf BATCH (pendingLabels cache names)).flatten).count n ≤ 1 := by
      rw [flatten_chunksOf BATCH (by decide)]
      exact List.nodup_iff_count_le_one.mp (pendingLabels_nodup cache names) n
    constructor
    · rw [prime_translation_cache_run, batchOccs_primeBatches]
      exact hcount
    · exact Nat.le_trans (singleOccs_primeBatches_le tr _ cache n) hcount
  refine ⟨fun cache names => ⟨pendingLabels_nodup cache names,
    pendingLabels_sublist cache names,
    fun n hn => ((pendingLabels_mem cache names n).mp hn).2, hprime cache names⟩, ?_⟩
  intro G loads ds s e r h
  by_cases hse : s > e
  · rw [mainRun, if_pos hse] at h
    exact absurd h (by simp)
  · rw [mainRun, if_neg hse] at h
    simp only [Except.ok.injEq] at h
    cases hd : discoverAll loads ds (yearsList s e) with
    | none => rw [hd] at h; exact absurd h (by simp)
    | some needs =>
      rw [hd] at h
      simp only [Option.some_bind] at h
      cases hp : phase3 loads (prime_translation_cache_run tr emptyCache needs).1 ds
          (yearsList s e) with
      | none => rw [hp] at h; exact absurd h (by simp)
      | some outs =>
        rw [hp] at h
        simp only [Option.some_bind, Option.some.injEq] at h
        rw [← h]
        exact ⟨rfl, hprime emptyCache needs⟩

/-- Witness for C1 at a concrete run over 1899–1901 in which the label
"Germany" recurs across two years. -/
theorem labels_translated_once_witness :
    batchOccs (runGet (mainRun trEx loadsNone dsEx 1899 1901) dfltRun).calls "Germany" ≤ 1 ∧
    singleOccs (runGet (mainRun trEx loadsNone dsEx 1899 1901) dfltRun).calls "Germany" ≤ 1 :=
  ((labels_translated_once trEx).2 Nat loadsNone dsEx 1899 1901
    (runGet (mainRun trEx loadsNone dsEx 1899 1901) dfltRun) rfl).2 "Germany"

/-! ### Orchestrator-level error handling -/

/-- Claim C7: a run with `start > end` is rejected with the fatal error message —
uniformly in the world (`tr`, `loads`, `ds`), i.e. before any dataset is read
or written and before any translation call — while for `start <= end` the run
exits normally, never with the range error. -/
theorem range_validation (tr : Translator) (loads : String → Option PyVal)
    (ds : Int → Option (List (Feature G))) (s e : Int) :
    (s > e → mainRun tr loads ds s e = Except.error (rangeErrMsg s e)) ∧
    (s ≤ e → exceptOk (mainRun tr loads ds s e) = true) := by
  constructor
  · intro hse
    rw [mainRun, if_pos hse]
  · intro hse
    rw [mainRun, if_neg (by omega)]
    rfl

/-- Witness for C7: `start=2000, end=1990` is fatal; `start=1900, end=1901`
is not. -/
theorem range_validation_witness :
    mainRun trEx loadsNone dsEx 2000 1990 = Except.error (rangeErrMsg 2000 1990) ∧
    exceptOk (mainRun trEx loadsNone dsEx 1900 1901) = true :=
  ⟨(range_validation trEx loadsNone dsEx 2000 1990).1 (by decide),
   (range_validation trEx loadsNone dsEx 1900 1901).2 (by decide)⟩

theorem phase3_years (loads : String → Option PyVal) (cache : Cache)
    (ds : Int → Option (List (Feature G))) : ∀ (years : List Int)
    (outs : List (Int × List (OutRow G))), phase3 loads cache ds years = some outs →
    outs.map Prod.fst = years.filter (fun y => (ds y).isSome)
  | [], outs => by
    intro h
    simp [phase3, mapMo] at h
    simp [← h]
  | y :: ys, outs => by
    intro h
    rw [phase3, mapMo] at h
    cases hm : mapMo (fun y => match ds y with
        | none => some none
        | some feats => (processFeatures loads cache feats).map
            (fun rows => some (y, rows))) ys with
    | none =>
      cases hdy : ds y with
      | none => simp [hdy, hm] at h
      | some feats =>
        cases hpf : processFeatures loads cache feats with
        | none => simp [hdy, hm, hpf] at h
        | some rows => simp [hdy, hm, hpf] at h
    | some l =>
      have hys := phase3_years loads cache ds ys (l.filterMap id)
        (by rw [phase3, hm]; rfl)
      cases hdy : ds y with
      | none =>
        simp only [hdy, hm, Option.map_some', Option.some.injEq] at h
        rw [← h]
        simp only [List.filterMap_cons, id]
        rw [List.filter_cons_of_neg (by simp [hdy])]
        exact hys
      | some feats =>
        cases hpf : processFeatures loads cache feats with
        | none => simp [hdy, hm, hpf] at h
        | some rows =>
          simp only [hdy, hm, hpf, Option.map_some', Option.some.injEq] at h
          rw [← h]
          simp only [List.filterMap_cons, id]
          rw [List.filter_cons_of_pos (by simp [hdy])]
          simp only [List.map_cons]
          rw [hys]

/-- Claim C8: a requested year with no source dataset is skipped without failing the
run, and the reported written count is exactly the number of requested years
whose dataset exists: the written years are precisely the existing ones, in
order. -/
theorem missing_years_skipped (tr : Translator) (loads : String → Option PyVal)
    (ds : Int → Option (List (Feature G))) (s e : Int) (r : RunResult G)
    (h : mainRun tr loads ds s e = Except.ok (some r)) :
    r.written = ((yearsList s e).filter (fun y => (ds y).isSome)).length ∧
    r.outputs.map Prod.fst = (yearsList s e).filter (fun y => (ds y).isSome) := by
  by_cases hse : s > e
  · rw [mainRun, if_pos hse] at h
    exact absurd h (by simp)
  · rw [mainRun, if_neg hse] at h
    simp only [Except.ok.injEq] at h
    cases hd : discoverAll loads ds (yearsList s e) with
    | none => rw [hd] at h; exact absurd h (by simp)
    | some needs =>
      rw [hd] at h
      simp only [Option.some_bind] at h
      cases hp : phase3 loads (prime_translation_cache_run tr emptyCache needs).1 ds
          (yearsList s e) with
      | none => rw [hp] at h; exact absurd h (by simp)
      | some outs =>
        rw [hp] at h
        simp only [Option.some_bind, Option.some.injEq] at h
        have hy := phase3_years loads (prime_translation_cache_run tr emptyCache needs).1
          ds (yearsList s e) outs hp
        rw [← h]
        refine ⟨?_, hy⟩
        rw [show outs.length = (outs.map Prod.fst).length by simp, hy]

/-- Witness for C8: requesting 1899–1901 against a world holding only 1900
and 1901 writes exactly two years, namely 1900 and 1901. -/
theorem missing_years_skipped_witness :
    (runGet (mainRun trEx loadsNone dsEx 1899 1901) dfltRun).written = 2 ∧
    (runGet (mainRun trEx loadsNone dsEx 1899 1901) dfltRun).outputs.map Prod.fst =
      [1900, 1901] := by
  have h := missing_years_skipped trEx loadsNone dsEx 1899 1901
    (runGet (mainRun trEx loadsNone dsEx 1899 1901) dfltRun) rfl
  exact ⟨h.1.trans (by decide), h.2.trans (by decide)⟩

/-! ### Empty labels never reach the provider -/

theorem mapMo_mem (f : α → Option β) : ∀ (l : List α) (r : List β),
    mapMo f l = some r → ∀ b ∈ r, ∃ a ∈ l, f a = some b
  | [], r => by
    intro h b hb
    simp [mapMo] at h
    rw [h] at hb
    exact absurd hb (List.not_mem_nil b)
  | a :: l, r => by
    intro h b hb
    rw [mapMo] at h
    cases hf : f a with
    | none => rw [hf] at h; exact absurd h (by simp)
    | some b0 =>
      rw [hf] at h
      cases hm : mapMo f l with
      | none => rw [hm] at h; exact absurd h (by simp)
      | some bs =>
        rw [hm] at h
        simp only [Option.some.injEq] at h
        rw [← h] at hb
        rcases List.mem_cons.mp hb with rfl | hb
        · exact ⟨a, List.mem_cons_self _ _, hf⟩
        · obtain ⟨a1, ha1, hfa1⟩ := mapMo_mem f l bs hm b hb
          exact ⟨a1, List.mem_cons_of_mem _ ha1, hfa1⟩

theorem featureNeed_not_empty (loads : String → Option PyVal) (f : Feature G) :
    featureNeed loads f ≠ some (some "") := by
  rw [featureNeed]
  cases hd : asDict (parse_tags loads f.tags) with
  | none => simp
  | some tags =>
    simp only [Option.map_some', Option.some.injEq, ne_eq]
    intro h
    rcases hz : get_title_zh tags (rawName f) with _ | z
    · rw [hz] at h
      simp only at h
      by_cases he : get_title_en tags (rawName f) = ""
      · rw [if_pos he] at h; exact absurd h (by simp)
      · rw [if_neg he] at h
        simp only [Option.some.injEq] at h
        exact he h
    · rw [hz] at h
      exact absurd h (by simp)

theorem discoverAll_no_empty (loads : String → Option PyVal)
    (ds : Int → Option (List (Feature G))) (years : List Int) (needs : List String)
    (h : discoverAll loads ds years = some needs) : "" ∉ needs := by
  intro hmem
  rw [discoverAll] at h
  cases hm : mapMo (fun y => match ds y with
      | none => some []
      | some feats => (mapMo (featureNeed loads) feats).map
          (fun (l : List (Option String)) => l.filterMap id)) years with
  | none => rw [hm] at h; exact absurd h (by simp)
  | some r =>
    rw [hm] at h
    simp only [Option.map_some', Option.some.injEq] at h
    rw [← h] at hmem
    obtain ⟨li, hli, hmemli⟩ := List.mem_flatten.mp hmem
    obtain ⟨hy, hymem, hstep⟩ := mapMo_mem _ years r hm li hli
    cases hdy : ds hy with
    | none =>
      simp only [hdy, Option.some.injEq] at hstep
      rw [← hstep] at hmemli
      exact absurd hmemli (List.not_mem_nil "")
    | some feats =>
      simp only [hdy] at hstep
      cases hmf : mapMo (featureNeed loads) feats with
      | none => rw [hmf] at hstep; exact absurd hstep (by simp)
      | some l2 =>
        rw [hmf] at hstep

        simp only [Option.map_some', Option.some.injEq] at hstep
        rw [← hstep] at hmemli
        obtain ⟨o, ho, hoeq⟩ := List.mem_filterMap.mp hmemli
        simp only [id] at hoeq
        subst hoeq
        obtain ⟨f0, _, hneed⟩ := mapMo_mem _ feats l2 hmf (some "") ho
        exact featureNeed_not_empty loads f0 hneed

/-- Claim C9: a feature whose tag blob fails to decode and whose raw name is empty
resolves both labels to the empty string; the empty label is never recorded by
discovery, never occurs in any provider call issued by priming, and is never a
key of the primed cache (so the resolution-phase lookup `_cache.get("", "")`
falls back to `""` itself). -/
theorem empty_label_never_translated :
    (∀ (G : Type) (loads : String → Option PyVal) (blob : String),
      loads blob = none → ∀ (g : G) (extra : List (String × PyVal)) (cache : Cache),
      cache "" = none →
      featureTitles loads cache ⟨g, some "", .pstr blob, extra⟩ = some ("", "") ∧
      featureNeed loads (⟨g, some "", .pstr blob, extra⟩ : Feature G) = some none) ∧
    (∀ (G : Type) (loads : String → Option PyVal) (ds : Int → Option (List (Feature G)))
      (years : List Int) (needs : List String),
      discoverAll loads ds years = some needs → "" ∉ needs) ∧
    (∀ (tr : Translator) (cache : Cache) (names : List String),
      ∀ call ∈ (prime_translation_cache_run tr cache names).2, "" ∉ call.labels) ∧
    (∀ (tr : Translator) (names : List String),
      prime_translation_cache tr emptyCache names "" = none) := by
  have hpending : ∀ (cache : Cache) (names : List String),
      "" ∉ (chunksOf BATCH (pendingLabels cache names)).flatten := by
    intro cache names hmem
    rw [flatten_chunksOf BATCH (by decide)] at hmem
    exact ((pendingLabels_mem cache names "").mp hmem).2.1 rfl
  refine ⟨?_, fun G loads ds years needs h => discoverAll_no_empty loads ds years needs h,
    ?_, ?_⟩
  · intro G loads blob hblob g extra cache hc
    have h1 : parse_tags loads (.pstr blob) = .dict [] := by
      rw [parse_tags, hblob]; rfl
    have hen : get_title_en [] "" = "" := by decide
    have hzh : get_title_zh [] "" = none := by decide
    constructor
    · simp [featureTitles, h1, asDict, rawName, hen, hzh, hc]
    · simp [featureNeed, h1, asDict, rawName, hen, hzh]
  · intro tr cache names call hcall hmem
    exact hpending cache names
      (primeBatches_call_labels tr _ cache call hcall "" hmem)
  · intro tr names
    rw [prime_translation_cache, prime_translation_cache_run,
      primeBatches_not_mem tr "" _ emptyCache (hpending emptyCache names)]
    rfl

/-- Witness for C9 at a concrete unparsable feature, a concrete discovery run,
and concrete priming runs. -/
theorem empty_label_never_translated_witness :
    featureTitles loadsNone emptyCache (⟨0, some "", .pstr "bad", []⟩ : Feature Nat) =
      some ("", "") ∧
    "" ∉ (["Germany"] : List String) ∧
    "" ∉ (PCall.batch ["Germany"]).labels ∧
    prime_translation_cache trEx emptyCache ["Germany"] "" = none := by
  have h := empty_label_never_translated
  refine ⟨(h.1 Nat loadsNone "bad" rfl 0 [] emptyCache rfl).1, ?_, ?_, h.2.2.2 trEx ["Germany"]⟩
  · exact h.2.1 Nat loadsNone dsEx [1900] ["Germany"] rfl
  · refine h.2.2.1 trFail emptyCache ["Germany"] (PCall.batch ["Germany"]) ?_
    rw [show (prime_translation_cache_run trFail emptyCache ["Germany"]).2 =
      [PCall.batch ["Germany"], PCall.single "Germany"] from rfl]
    exact List.mem_cons_self _ _

end OHM
